import Mathlib

/-!
Verification of the `oxedium-protocol/integration-template` repository.

This file shallowly embeds the parts of the repository that the claims
concern:

* `src/src/account_caching/rpc_cache.rs` — the `RpcClientCache` account
  cache (`get_multiple`, `get_account`, `get_accounts`).
* `src/src/trading_venue/bounds.rs` — the boundary search
  (`find_boundaries_coarse`, `refine_lower`, `refine_upper`,
  `find_boundaries`).
* `src/src/oxedium/amm.rs` — the `OxediumAmmVenue` venue
  (`update_state`, `quote`).

Machine integers (`u64`) are embedded as `Nat` with explicit saturation
at `2^64 - 1` where the source uses saturating arithmetic.  Fallible
operations return `Except`/`Option`.  A `DashMap`/`AHashMap` is embedded
as an association list whose `insert` removes the old binding and
prepends the new one, so lookups see the most recent write and iteration
visits each live key exactly once, as for the hash maps in the source.
-/

/-- Account identifier.  In the source this is a 32-byte `Pubkey`; the
cache and venue code treat it as an opaque key with decidable equality,
so it is embedded as `Nat`. -/
abbrev Pubkey := Nat

/-- A Solana account.  The embedded code reads only the `data` byte
vector of `solana_account::Account`; the remaining fields (lamports,
owner, executable, rent epoch) are never consulted and are omitted. -/
structure Account where
  data : List Nat
deriving DecidableEq

/-- Association-list embedding of `DashMap<Pubkey, Option<Account>>`
(the cache table) and of `AHashMap<Pubkey, Option<Account>>` (the
reassembly map of `get_accounts`).  The entry value `none` is a
*negatively cached* key (confirmed absent), which is distinct from the
key having no entry at all. -/
abbrev AccountMap := List (Pubkey × Option Account)

/-- Map lookup: the value bound to `k`, or `none` when `k` has no
entry.  Models `DashMap::get` / `AHashMap::get`. -/
def mapGet (m : AccountMap) (k : Pubkey) : Option (Option Account) :=
  match m with
  | [] => none
  | (k', v) :: rest => if k' = k then some v else mapGet rest k

/-- Removal of the old binding of a key, used to model the overwrite
performed by a hash-map `insert`. -/
def mapErase (m : AccountMap) (k : Pubkey) : AccountMap :=
  match m with
  | [] => []
  | (k', v) :: rest =>
    if k' = k then mapErase rest k else (k', v) :: mapErase rest k

/-- Map insert with overwrite: models `DashMap::insert` /
`AHashMap::insert`.  The stale binding is removed so that the list keeps
one live entry per key, as a hash map does. -/
def mapInsert (m : AccountMap) (k : Pubkey) (v : Option Account) : AccountMap :=
  (k, v) :: mapErase m k

theorem mapGet_erase (m : AccountMap) (k k' : Pubkey) :
    mapGet (mapErase m k) k' = if k' = k then none else mapGet m k' := by
  induction m with
  | nil => simp [mapErase, mapGet]
  | cons hd rest ih =>
    obtain ⟨k1, v1⟩ := hd
    simp only [mapErase]
    by_cases h1 : k1 = k
    · rw [if_pos h1, ih]
      by_cases h2 : k' = k
      · simp [h2]
      · have h3 : ¬ k1 = k' := fun hh => h2 (hh ▸ h1)
        simp [mapGet, h2, h3]
    · rw [if_neg h1]
      simp only [mapGet, ih]
      by_cases h3 : k1 = k'
      · have h2 : ¬ k' = k := fun hh => h1 (h3.trans hh)
        simp [h2, h3]
      · simp [h3]

@[simp] theorem mapGet_insert (m : AccountMap) (k k' : Pubkey) (v : Option Account) :
    mapGet (mapInsert m k v) k' = if k = k' then some v else mapGet m k' := by
  by_cases h : k = k'
  · simp [mapInsert, mapGet, h]
  · have h' : ¬ k' = k := fun hh => h hh.symm
    simp [mapInsert, mapGet, mapGet_erase, h, h']

@[simp] theorem mapGet_nil (k : Pubkey) : mapGet [] k = none := rfl

instance {ε α : Type} [DecidableEq ε] [DecidableEq α] : DecidableEq (Except ε α) :=
  fun a b =>
  match a, b with
  | .error x, .error y =>
    if h : x = y then isTrue (congrArg Except.error h)
    else isFalse (fun hc => h (Except.error.inj hc))
  | .ok x, .ok y =>
    if h : x = y then isTrue (congrArg Except.ok h)
    else isFalse (fun hc => h (Except.ok.inj hc))
  | .error _, .ok _ => isFalse (fun hc => nomatch hc)
  | .ok _, .error _ => isFalse (fun hc => nomatch hc)

/-- The cache table of `RpcClientCache`: `DashMap<Pubkey, Option<Account>>`. -/
abbrev Cache := AccountMap

/-- Embeds `RpcClientCache::get_multiple` (rpc_cache.rs:67-78): for each pubkey,
push the *stored value* (`value.clone()`, of type `Option<Account>`) when
the key has an entry, and `None` otherwise.  Note that a negatively
cached key (entry `none`) therefore produces the same `none` in the
output as a key with no entry at all. -/
def get_multiple (c : Cache) (pubkeys : List Pubkey) : List (Option Account) :=
  pubkeys.map (fun k =>
    match mapGet c k with
    | some value => value
    | none => none)

/-- Outcome of the remote `get_multiple_accounts` RPC batch call.  The
real call either fails wholesale or returns one `Option<Account>` per
requested key. -/
inductive FetchManyResult where
  | success (accounts : List (Option Account))
  | failure
deriving DecidableEq

/-- The chain as seen through a well-behaved RPC node: the documented
contract of `get_multiple_accounts` is to return, on success, a list of
the same length as the request with the `i`-th element describing the
`i`-th requested key. -/
def pointwise_fetch (chain : Pubkey → Option Account) :
    List Pubkey → FetchManyResult :=
  fun keys => .success (keys.map chain)

/-- One step of the `for_each` loop of `get_accounts` (rpc_cache.rs:123-134)
that splits cached results and pubkeys into the RPC miss list `keys` and
the hit entries of `result_map`. -/
def split_step (acc : List Pubkey × AccountMap) (p : Option Account × Pubkey) :
    List Pubkey × AccountMap :=
  match p.1 with
  | some res => (acc.1, mapInsert acc.2 p.2 (some res))
  | none => (acc.1 ++ [p.2], acc.2)

/-- The full hit/miss split loop of `get_accounts`. -/
def split_hits_misses (pairs : List (Option Account × Pubkey)) :
    List Pubkey × AccountMap :=
  pairs.foldl split_step ([], [])

/-- The loop `for (pubkey, account) in keys.iter().zip(response.iter())`
(rpc_cache.rs:145-148): store each batch result in the reassembly map
and in the cache table. -/
def apply_batch (m : AccountMap) (c : Cache) :
    List (Pubkey × Option Account) → AccountMap × Cache
  | [] => (m, c)
  | (k, a) :: rest => apply_batch (mapInsert m k a) (mapInsert c k a) rest

/-- The final reassembly loop of `get_accounts` (rpc_cache.rs:152-157).
`none` models the `unwrap()` panic that occurs when some input pubkey is
missing from `result_map`. -/
def reassemble (m : AccountMap) : List Pubkey → Option (List (Option Account))
  | [] => some []
  | k :: rest =>
    match mapGet m k with
    | none => none
    | some v =>
      match reassemble m rest with
      | none => none
      | some out => some (v :: out)

/-- Result of a `get_accounts` call.  `result = none` models a panic;
`result = some (.error ())` models the propagated
`AccountCacheError::FailedToFetchAccount`; `remote_batches` records the
key list of each remote `get_multiple_accounts` call issued (the source
issues at most one). -/
structure GetAccountsOutcome where
  result : Option (Except Unit (List (Option Account)))
  cache : Cache
  remote_batches : List (List Pubkey)
deriving DecidableEq

/-- Embeds `RpcClientCache::get_accounts` (rpc_cache.rs:114-160), parameterised
by the remote batch fetch `fetch_many` (the `rpc_client`
`get_multiple_accounts` collaborator). -/
def get_accounts (fetch_many : List Pubkey → FetchManyResult)
    (c : Cache) (pubkeys : List Pubkey) : GetAccountsOutcome :=
  let cached := get_multiple c pubkeys
  let split := split_hits_misses (cached.zip pubkeys)
  let keys := split.1
  let rmap := split.2
  if keys = [] then
    match reassemble rmap pubkeys with
    | none => ⟨none, c, []⟩
    | some out => ⟨some (.ok out), c, []⟩
  else
    match fetch_many keys with
    | .failure => ⟨some (.error ()), c, [keys]⟩
    | .success response =>
      let updated := apply_batch rmap c (keys.zip response)
      match reassemble updated.1 pubkeys with
      | none => ⟨none, updated.2, [keys]⟩
      | some out => ⟨some (.ok out), updated.2, [keys]⟩

/-- Result of a single `get_account` call, with the number of remote
fetches performed. -/
structure GetAccountOutcome where
  result : Except Unit (Option Account)
  cache : Cache
  remote_calls : Nat
deriving DecidableEq

/-- Embeds `RpcClientCache::get_account` (rpc_cache.rs:89-104), parameterised by
the chain state.  The underlying `RpcClient::get_account` returns the
account on success and an *error* when the account does not exist, so a
confirmed-absent key surfaces as `AccountCacheError::FailedToFetchAccount`
here; only the positive outcome is cached (the source comment reads
`// Cache positive lookup`). -/
def get_account (chain : Pubkey → Option Account) (c : Cache) (k : Pubkey) :
    GetAccountOutcome :=
  match mapGet c k with
  | some account => ⟨.ok account, c, 0⟩
  | none =>
    match chain k with
    | some response => ⟨.ok (some response), mapInsert c k (some response), 1⟩
    | none => ⟨.error (), c, 1⟩

/-- What `get_multiple` yields for one key: the stored value when the
key has an entry, `none` otherwise. -/
def cache_view (c : Cache) (k : Pubkey) : Option Account :=
  match mapGet c k with
  | some value => value
  | none => none

theorem get_multiple_eq_map (c : Cache) (pubkeys : List Pubkey) :
    get_multiple c pubkeys = pubkeys.map (cache_view c) := rfl

/-- The record a `get_accounts` call backed by chain state `chain`
resolves for one key: a cached Present value is served from the table,
every other key (no entry, or negatively cached) comes from the remote
response. -/
def resolved_record (c : Cache) (chain : Pubkey → Option Account) (k : Pubkey) :
    Option Account :=
  match mapGet c k with
  | some (some a) => some a
  | _ => chain k

theorem resolved_record_of_view_isSome (c : Cache) (chain : Pubkey → Option Account)
    (k : Pubkey) (h : (cache_view c k).isSome) :
    resolved_record c chain k = cache_view c k := by
  unfold resolved_record cache_view at *
  cases hm : mapGet c k with
  | none => rw [hm] at h; simp at h
  | some v =>
    cases v with
    | none => rw [hm] at h; simp at h
    | some a => simp [hm]

theorem resolved_record_of_view_isNone (c : Cache) (chain : Pubkey → Option Account)
    (k : Pubkey) (h : (cache_view c k).isNone) :
    resolved_record c chain k = chain k := by
  unfold resolved_record cache_view at *
  cases hm : mapGet c k with
  | none => simp [hm]
  | some v =>
    cases v with
    | none => simp [hm]
    | some a => rw [hm] at h; simp at h

theorem split_keys_eq (g : Pubkey → Option Account) (K : List Pubkey) :
    (split_hits_misses ((K.map g).zip K)).1 = K.filter (fun k => (g k).isNone) := by
  have main : ∀ (K : List Pubkey) (acc : List Pubkey × AccountMap),
      (((K.map g).zip K).foldl split_step acc).1 =
        acc.1 ++ K.filter (fun k => (g k).isNone) := by
    intro K
    induction K with
    | nil => intro acc; simp
    | cons k K ih =>
      intro acc
      cases hg : g k with
      | some a => simp [split_step, hg, ih, List.filter_cons]
      | none => simp [split_step, hg, ih, List.filter_cons]
  simpa [split_hits_misses] using main K ([], [])

theorem split_map_get (g : Pubkey → Option Account) (K : List Pubkey) (k' : Pubkey) :
    mapGet (split_hits_misses ((K.map g).zip K)).2 k' =
      if k' ∈ K ∧ (g k').isSome then some (g k') else none := by
  have main : ∀ (K : List Pubkey) (acc : List Pubkey × AccountMap),
      mapGet (((K.map g).zip K).foldl split_step acc).2 k' =
        if k' ∈ K ∧ (g k').isSome then some (g k') else mapGet acc.2 k' := by
    intro K
    induction K with
    | nil => intro acc; simp
    | cons k K ih =>
      intro acc
      cases hg : g k with
      | some a =>
        by_cases hk : k = k'
        · subst hk
          by_cases hmem : k ∈ K <;>
            simp [split_step, hg, ih, hmem, mapGet_insert]
        · have hk' : ¬ k' = k := fun h => hk h.symm
          simp [split_step, hg, ih, hk, hk', mapGet_insert, List.mem_cons]
      | none =>
        by_cases hk : k' = k
        · subst hk
          simp [split_step, hg, ih]
        · simp [split_step, hg, ih, hk, List.mem_cons]
  simpa [split_hits_misses] using main K ([], [])

theorem apply_batch_get_pointwise (chain : Pubkey → Option Account)
    (keys : List Pubkey) :
    ∀ (m : AccountMap) (c : Cache) (k' : Pubkey),
      mapGet (apply_batch m c (keys.zip (keys.map chain))).1 k' =
        if k' ∈ keys then some (chain k') else mapGet m k' := by
  induction keys with
  | nil => intro m c k'; simp [apply_batch]
  | cons k keys ih =>
    intro m c k'
    have hstep : apply_batch m c ((k :: keys).zip ((k :: keys).map chain)) =
        apply_batch (mapInsert m k (chain k)) (mapInsert c k (chain k))
          (keys.zip (keys.map chain)) := rfl
    rw [hstep, ih]
    by_cases hk : k = k'
    · subst hk
      by_cases hmem : k ∈ keys <;> simp [hmem, mapGet_insert]
    · have hk' : ¬ k' = k := fun h => hk h.symm
      simp [hk, hk', List.mem_cons, mapGet_insert]

theorem apply_batch_get_isSome (pairs : List (Pubkey × Option Account)) :
    ∀ (m : AccountMap) (c : Cache) (k' : Pubkey),
      (k' ∈ pairs.map Prod.fst ∨ (mapGet m k').isSome) →
      (mapGet (apply_batch m c pairs).1 k').isSome := by
  induction pairs with
  | nil =>
    intro m c k' h
    simpa using h
  | cons p rest ih =>
    intro m c k' h
    obtain ⟨k, a⟩ := p
    apply ih
    by_cases hk : k = k'
    · right; simp [mapGet_insert, hk]
    · cases h with
      | inl hmem =>
        rcases List.mem_cons.mp hmem with h1 | h2
        · exact absurd h1.symm hk
        · exact Or.inl h2
      | inr hsome => right; simpa [mapGet_insert, hk] using hsome

theorem reassemble_eq_map (m : AccountMap) (r : Pubkey → Option Account) :
    ∀ K : List Pubkey, (∀ k, k ∈ K → mapGet m k = some (r k)) →
      reassemble m K = some (K.map r) := by
  intro K
  induction K with
  | nil => intro _; simp [reassemble]
  | cons k K ih =>
    intro h
    have hk := h k (List.mem_cons_self k K)
    have hrest := ih (fun k' hk' => h k' (List.mem_cons_of_mem _ hk'))
    simp [reassemble, hk, hrest]

theorem reassemble_isSome (m : AccountMap) :
    ∀ K : List Pubkey, (∀ k, k ∈ K → (mapGet m k).isSome) →
      (reassemble m K).isSome := by
  intro K
  induction K with
  | nil => intro _; simp [reassemble]
  | cons k K ih =>
    intro h
    obtain ⟨v, hv⟩ := Option.isSome_iff_exists.mp (h k (List.mem_cons_self k K))
    obtain ⟨out, hout⟩ := Option.isSome_iff_exists.mp
      (ih (fun k' hk' => h k' (List.mem_cons_of_mem _ hk')))
    simp [reassemble, hv, hout]

theorem get_accounts_pointwise (c : Cache) (chain : Pubkey → Option Account)
    (K : List Pubkey) :
    (get_accounts (pointwise_fetch chain) c K).result =
      some (.ok (K.map (resolved_record c chain))) := by
  simp only [get_accounts, get_multiple_eq_map, split_keys_eq]
  by_cases hempty : K.filter (fun k => ((cache_view c) k).isNone) = []
  · have hall : ∀ k, k ∈ K → (cache_view c k).isSome := by
      intro k hk
      have hnot := List.filter_eq_nil_iff.mp hempty k hk
      cases h : cache_view c k with
      | none => exact absurd (by simp [h]) hnot
      | some a => simp
    have hre : reassemble (split_hits_misses ((K.map (cache_view c)).zip K)).2 K =
        some (K.map (resolved_record c chain)) := by
      apply reassemble_eq_map
      intro k hk
      rw [split_map_get, if_pos ⟨hk, hall k hk⟩,
        resolved_record_of_view_isSome c chain k (hall k hk)]
    rw [if_pos hempty, hre]
  · rw [if_neg hempty]
    have hfetch : pointwise_fetch chain (K.filter (fun k => ((cache_view c) k).isNone)) =
        .success ((K.filter (fun k => ((cache_view c) k).isNone)).map chain) := rfl
    rw [hfetch]
    simp only []
    have hre : reassemble
        (apply_batch (split_hits_misses ((K.map (cache_view c)).zip K)).2 c
          ((K.filter (fun k => ((cache_view c) k).isNone)).zip
            ((K.filter (fun k => ((cache_view c) k).isNone)).map chain))).1 K =
        some (K.map (resolved_record c chain)) := by
      apply reassemble_eq_map
      intro k hk
      rw [apply_batch_get_pointwise]
      by_cases hv : (cache_view c k).isNone
      · rw [if_pos (List.mem_filter.mpr ⟨hk, by simpa using hv⟩),
          resolved_record_of_view_isNone c chain k hv]
      · have hnmem : k ∉ K.filter (fun k => ((cache_view c) k).isNone) := by
          intro hmem
          exact hv (by simpa using (List.mem_filter.mp hmem).2)
        have hs : (cache_view c k).isSome := by
          cases h : cache_view c k with
          | none => exact absurd (by simp [h]) hv
          | some a => simp
        rw [if_neg hnmem, split_map_get, if_pos ⟨hk, hs⟩,
          resolved_record_of_view_isSome c chain k hs]
    simp only [hre]

/-- Claim C1: in the code, a negatively cached key is NOT served from the
cache by `get_accounts` — `get_multiple` returns `None` for it, so the
split loop classifies it as a miss and it is refetched remotely.  With
the cache pre-seeded `{A = 0 ↦ Present [7], B = 1 ↦ Absent}`, the call
`get_accounts [A, B, A]` issues one remote batch call for `[B]` (the
claim requires zero remote calls), even though the returned list matches
the cached values. -/
theorem claim_C1_code_eval :
    (get_accounts (pointwise_fetch (fun _ => none))
        [(0, some ⟨[7]⟩), (1, none)] [0, 1, 0]).remote_batches = [[1]] ∧
    (get_accounts (pointwise_fetch (fun _ => none))
        [(0, some ⟨[7]⟩), (1, none)] [0, 1, 0]).result =
      some (.ok [some ⟨[7]⟩, none, some ⟨[7]⟩]) := by
  decide

/-- Claim C3: for every key list `K`, with any mix of cache hits, misses
and duplicates, `get_accounts` (with a pointwise remote source) succeeds
with a list of length `len K` whose `i`-th element is the resolved
record for `K[i]`: output order mirrors input order. -/
theorem claim_C3 (c : Cache) (chain : Pubkey → Option Account) (K : List Pubkey) :
    ∃ out, (get_accounts (pointwise_fetch chain) c K).result = some (.ok out) ∧
      out.length = K.length ∧
      ∀ i, i < K.length → out[i]? = (K[i]?).map (resolved_record c chain) := by
  refine ⟨K.map (resolved_record c chain), get_accounts_pointwise c chain K, by simp, ?_⟩
  intro i _
  exact List.getElem?_map _ _ _

theorem claim_C3_witness :
    ∃ out, (get_accounts (pointwise_fetch (fun k => some ⟨[k]⟩))
        [(1, none)] [1, 2]).result = some (.ok out) ∧
      out.length = ([1, 2] : List Pubkey).length ∧
      ∀ i, i < ([1, 2] : List Pubkey).length →
        out[i]? = (([1, 2] : List Pubkey)[i]?).map
          (resolved_record [(1, none)] (fun k => some ⟨[k]⟩)) :=
  claim_C3 [(1, none)] (fun k => some ⟨[k]⟩) [1, 2]

/-- Claim C4 (counterexample): the split loop pushes one entry per input
occurrence of each unresolved key, without deduplication.  With an empty
cache and input `[7, 7]`, the remote batch request is `[7, 7]`: the
unresolved key `7` appears twice, not exactly once as the claim states. -/
theorem claim_C4_counterexample :
    (get_accounts (pointwise_fetch (fun _ => none)) [] [7, 7]).remote_batches
        = [[7, 7]] ∧
    ¬ ([7, 7] : List Pubkey).count 7 = 1 := by
  decide

/-- Claim C4 (amended): the key list sent to the remote batch call is
exactly the sublist of the input made of the keys whose `get_multiple`
lookup produced no account — one entry per input occurrence (duplicates
are not removed), in input order; this includes negatively cached keys
and excludes only keys cached as Present.  No call is made when that
sublist is empty. -/
theorem claim_C4_amended (fetch_many : List Pubkey → FetchManyResult) (c : Cache)
    (K : List Pubkey) :
    (get_accounts fetch_many c K).remote_batches =
      if K.filter (fun k => (cache_view c k).isNone) = [] then []
      else [K.filter (fun k => (cache_view c k).isNone)] := by
  simp only [get_accounts, get_multiple_eq_map, split_keys_eq]
  by_cases hempty : K.filter (fun k => ((cache_view c) k).isNone) = []
  · rw [if_pos hempty, if_pos hempty]
    cases hre : reassemble (split_hits_misses ((K.map (cache_view c)).zip K)).2 K <;>
      simp [hre]
  · rw [if_neg hempty, if_neg hempty]
    cases hf : fetch_many (K.filter (fun k => ((cache_view c) k).isNone)) with
    | failure => simp
    | success resp =>
      cases hre : reassemble
          (apply_batch (split_hits_misses ((K.map (cache_view c)).zip K)).2 c
            ((K.filter (fun k => ((cache_view c) k).isNone)).zip resp)).1 K <;>
        simp [hre]

/-- Claim C5 (counterexample): on a miss where the remote source reports
the account absent, `get_account` returns the propagated fetch error —
not `Absent` — and caches nothing (the underlying single-account RPC
signals a missing account as an error, and only positive lookups are
cached). -/
theorem claim_C5_counterexample :
    (get_account (fun _ => none) ([] : Cache) 0).result = .error () ∧
    (get_account (fun _ => none) ([] : Cache) 0).cache = [] ∧
    (get_account (fun _ => none) ([] : Cache) 0).remote_calls = 1 := by
  decide

/-- Claim C5 (amended): on a cache miss `get_account` performs exactly
one single-key remote fetch; a Present outcome is recorded in the table
before returning; an absent account surfaces as a fetch error, nothing
is recorded, and a subsequent `get_account` for the same key performs
the remote fetch again. -/
theorem claim_C5_amended (chain : Pubkey → Option Account) (c : Cache) (k : Pubkey)
    (hmiss : mapGet c k = none) :
    (get_account chain c k).remote_calls = 1 ∧
    (∀ a, chain k = some a →
      (get_account chain c k).result = .ok (some a) ∧
      (get_account chain c k).cache = mapInsert c k (some a)) ∧
    (chain k = none →
      (get_account chain c k).result = .error () ∧
      (get_account chain c k).cache = c ∧
      (get_account chain ((get_account chain c k).cache) k).remote_calls = 1) := by
  refine ⟨?_, ?_, ?_⟩
  · cases hc : chain k <;> simp [get_account, hmiss, hc]
  · intro a ha
    constructor <;> simp [get_account, hmiss, ha]
  · intro ha
    refine ⟨?_, ?_, ?_⟩ <;> simp [get_account, hmiss, ha]

theorem claim_C5_witness :
    mapGet ([] : Cache) 0 = none ∧
    (get_account (fun _ => some ⟨[3]⟩) ([] : Cache) 0).remote_calls = 1 :=
  ⟨by decide, (claim_C5_amended (fun _ => some ⟨[3]⟩) [] 0 (by decide)).1⟩

/-- Claim C10: whenever the remote batch fetch returns, on success, a
list of the same length as its request, `get_accounts` never reaches the
panic in the reassembly loop: every input pubkey has an entry in the
result map. -/
theorem claim_C10 (fetch_many : List Pubkey → FetchManyResult) (c : Cache)
    (K : List Pubkey)
    (hlen : ∀ ks res, fetch_many ks = .success res → res.length = ks.length) :
    (get_accounts fetch_many c K).result ≠ none := by
  simp only [get_accounts, get_multiple_eq_map, split_keys_eq]
  by_cases hempty : K.filter (fun k => ((cache_view c) k).isNone) = []
  · rw [if_pos hempty]
    have hall : ∀ k, k ∈ K → (cache_view c k).isSome := by
      intro k hk
      have hnot := List.filter_eq_nil_iff.mp hempty k hk
      cases h : cache_view c k with
      | none => exact absurd (by simp [h]) hnot
      | some a => simp
    have hsome : (reassemble (split_hits_misses ((K.map (cache_view c)).zip K)).2 K).isSome := by
      apply reassemble_isSome
      intro k hk
      rw [split_map_get, if_pos ⟨hk, hall k hk⟩]
      simp
    obtain ⟨out, hout⟩ := Option.isSome_iff_exists.mp hsome
    simp [hout]
  · rw [if_neg hempty]
    cases hf : fetch_many (K.filter (fun k => ((cache_view c) k).isNone)) with
    | failure => simp
    | success resp =>
      have hlen' := hlen _ _ hf
      have hsome : (reassemble
          (apply_batch (split_hits_misses ((K.map (cache_view c)).zip K)).2 c
            ((K.filter (fun k => ((cache_view c) k).isNone)).zip resp)).1 K).isSome := by
        apply reassemble_isSome
        intro k hk
        apply apply_batch_get_isSome
        by_cases hv : (cache_view c k).isNone
        · left
          rw [List.map_fst_zip _ _ (by omega)]
          exact List.mem_filter.mpr ⟨hk, by simpa using hv⟩
        · right
          have hs : (cache_view c k).isSome := by
            cases h : cache_view c k with
            | none => exact absurd (by simp [h]) hv
            | some a => simp
          rw [split_map_get, if_pos ⟨hk, hs⟩]
          simp
      obtain ⟨out, hout⟩ := Option.isSome_iff_exists.mp hsome
      simp [hout]

theorem claim_C10_witness :
    (get_accounts (pointwise_fetch (fun _ => none)) ([] : Cache) [0]).result ≠ none :=
  claim_C10 (pointwise_fetch (fun _ => none)) [] [0]
    (by intro ks res h; simp only [pointwise_fetch] at h; cases h; simp)

/-- Embeds `u64::MAX`. -/
def UMAX : Nat := 2 ^ 64 - 1

/-- Embeds `x.saturating_mul(SCALING_FACTOR)` with `SCALING_FACTOR = 2`
(bounds.rs:30): `u64` saturating multiplication embedded on `Nat`. -/
def satMul2 (x : Nat) : Nat := min (x * 2) UMAX

/-- Embeds `trading_venue::QuoteResult` (trading_venue/mod.rs). -/
structure QuoteResult where
  input_mint : Pubkey
  output_mint : Pubkey
  amount : Nat
  expected_output : Nat
  not_enough_liquidity : Bool
deriving DecidableEq

/-- Embeds `valid_quote` (bounds.rs:37-39). -/
def valid_quote (q : QuoteResult) : Bool :=
  !(q.not_enough_liquidity || q.expected_output == 0)

/-- Validity of one probe of the pricing function: the probe returned
`Ok` and `valid_quote` holds.  Every branch of the boundary search
depends on a probed quote only through this predicate: in the coarse
lower phase and in `refine_lower` an `Err` is treated like an invalid
quote (bounds.rs:79, bounds.rs:178), in the coarse upper phase an `Err`
ends the loop exactly as an invalid quote does (bounds.rs:101-103), and
in `refine_upper` an `Err` moves `high` down like an invalid quote does
(bounds.rs:240). -/
def probe_valid (f : Nat → Except Unit QuoteResult) (x : Nat) : Bool :=
  match f x with
  | .ok r => valid_quote r
  | .error _ => false

/-- Phase 1 of `find_boundaries_coarse` (bounds.rs:70-91): double
`lower_high` until a valid quote appears, with overflow/saturation
protection.  The loop is embedded with a fuel argument; `none` marks
exhausted fuel, and the fuel `64` used below is proved sufficient
(`lower_high` at least doubles on every iteration that recurses). -/
def coarseLowerAux (f : Nat → Except Unit QuoteResult) :
    Nat → Nat → Nat → Option (Nat × Nat)
  | fuel, lower_low, lower_high =>
    if probe_valid f lower_high then some (lower_low, lower_high)
    else
      match fuel with
      | 0 => none
      | fuel' + 1 =>
        if satMul2 lower_high ≤ lower_high ∨ satMul2 lower_high = UMAX then
          some (lower_high, UMAX)
        else coarseLowerAux f fuel' lower_high (satMul2 lower_high)

/-- Phase 2 of `find_boundaries_coarse` (bounds.rs:101-114): double
`upper_high` while quotes stay valid (`while let Ok` plus the
`!valid_quote` break: an `Err` or invalid probe ends the loop), with the
same overflow protection. -/
def coarseUpperAux (f : Nat → Except Unit QuoteResult) :
    Nat → Nat → Nat → Option (Nat × Nat)
  | fuel, upper_low, upper_high =>
    if probe_valid f upper_high then
      match fuel with
      | 0 => none
      | fuel' + 1 =>
        if satMul2 upper_high ≤ upper_high ∨ satMul2 upper_high = UMAX then
          some (upper_high, UMAX)
        else coarseUpperAux f fuel' upper_high (satMul2 upper_high)
    else some (upper_low, upper_high)

/-- Embeds `find_boundaries_coarse` (bounds.rs:67-118).  The returned 4-tuple is
`(lower_low, lower_high, upper_low, upper_high)`.  The source function
always returns `Ok`, so the `Result` wrapper is dropped; `none` only
marks exhausted fuel in one of the embedded loops. -/
def find_boundaries_coarse (f : Nat → Except Unit QuoteResult) :
    Option (Nat × Nat × Nat × Nat) :=
  match coarseLowerAux f 64 0 1 with
  | none => none
  | some (lower_low, lower_high) =>
    let upper_low := lower_high
    let upper_high := satMul2 upper_low
    if upper_high ≤ upper_low then some (lower_low, lower_high, upper_low, upper_low)
    else
      match coarseUpperAux f 64 upper_low upper_high with
      | none => none
      | some (upper_low', upper_high') =>
        some (lower_low, lower_high, upper_low', upper_high')

/-- The binary-refinement loop of `refine_lower` (bounds.rs:167-180):
probe `mid = high / 2 + low / 2`; a valid probe moves `high` down, an
invalid or erroring probe moves `low` up; exit when the bracket width is
at most 100.  Embedded with fuel (`none` = exhausted); the final
`(low, high)` pair is returned so the exit state can be inspected.  The
initial probes of `f(low)`/`f(high)` in the source (bounds.rs:141-164)
only log invariant violations and do not affect the result. -/
def refineLowerAux (f : Nat → Except Unit QuoteResult) :
    Nat → Nat → Nat → Option (Nat × Nat)
  | fuel, low, high =>
    if high - low ≤ 100 then some (low, high)
    else
      match fuel with
      | 0 => none
      | fuel' + 1 =>
        if probe_valid f (high / 2 + low / 2) then
          refineLowerAux f fuel' low (high / 2 + low / 2)
        else refineLowerAux f fuel' (high / 2 + low / 2) high

/-- The binary-refinement loop of `refine_upper` (bounds.rs:229-242):
symmetric to `refineLowerAux`, a valid probe moves `low` up, an invalid
or erroring probe moves `high` down. -/
def refineUpperAux (f : Nat → Except Unit QuoteResult) :
    Nat → Nat → Nat → Option (Nat × Nat)
  | fuel, low, high =>
    if high - low ≤ 100 then some (low, high)
    else
      match fuel with
      | 0 => none
      | fuel' + 1 =>
        if probe_valid f (high / 2 + low / 2) then
          refineUpperAux f fuel' (high / 2 + low / 2) high
        else refineUpperAux f fuel' low (high / 2 + low / 2)

/-- Embeds `refine_lower` (bounds.rs:135-183): returns the final `high`.  The
fuel `high - low` is proved sufficient below (the bracket width shrinks
by at least 50 per iteration). -/
def refine_lower (f : Nat → Except Unit QuoteResult) (low high : Nat) : Option Nat :=
  (refineLowerAux f (high - low) low high).map (fun p => p.2)

/-- Embeds `refine_upper` (bounds.rs:199-245): returns the final `low`. -/
def refine_upper (f : Nat → Except Unit QuoteResult) (low high : Nat) : Option Nat :=
  (refineUpperAux f (high - low) low high).map (fun p => p.1)

/-- Embeds `TradingVenueError::BoundarySearchFailed` and
`TradingVenueError::NoQuotableValue` (error.rs); the attached message
strings are dropped. -/
inductive SearchError where
  | boundarySearchFailed
  | noQuotableValue
deriving DecidableEq

/-- Embeds `find_boundaries` (bounds.rs:260-283): coarse search, degenerate
checks, then the two refinements.  `none` only marks exhausted fuel in
an embedded loop. -/
def find_boundaries (f : Nat → Except Unit QuoteResult) :
    Option (Except SearchError (Nat × Nat)) :=
  match find_boundaries_coarse f with
  | none => none
  | some (lower_low, lower_high, upper_low, upper_high) =>
    if lower_low = upper_high then some (.error .boundarySearchFailed)
    else if lower_high = UMAX then some (.error .noQuotableValue)
    else
      match refine_lower f lower_low lower_high,
        refine_upper f upper_low upper_high with
      | some lower_bound, some upper_bound => some (.ok (lower_bound, upper_bound))
      | _, _ => none

theorem UMAX_eq : UMAX = 18446744073709551615 := by norm_num [UMAX]

theorem coarseLowerAux_succ (f : Nat → Except Unit QuoteResult)
    (fuel ll lh : Nat) :
    coarseLowerAux f (fuel + 1) ll lh =
      if probe_valid f lh then some (ll, lh)
      else if satMul2 lh ≤ lh ∨ satMul2 lh = UMAX then some (lh, UMAX)
      else coarseLowerAux f fuel lh (satMul2 lh) := rfl

theorem coarseUpperAux_succ (f : Nat → Except Unit QuoteResult)
    (fuel ul uh : Nat) :
    coarseUpperAux f (fuel + 1) ul uh =
      if probe_valid f uh then
        if satMul2 uh ≤ uh ∨ satMul2 uh = UMAX then some (uh, UMAX)
        else coarseUpperAux f fuel uh (satMul2 uh)
      else some (ul, uh) := rfl

/-- Bounds on the probe `mid = high / 2 + low / 2` while the bracket is
wider than the 100-atom tolerance: the probe stays inside the bracket
and each update shrinks the width by at least 50. -/
theorem mid_bounds (low high : Nat) (hw : 100 < high - low) :
    low ≤ high / 2 + low / 2 ∧ high / 2 + low / 2 ≤ high ∧
    high - (high / 2 + low / 2) ≤ high - low - 50 ∧
    (high / 2 + low / 2) - low ≤ high - low - 50 := by
  omega

theorem refineLowerAux_spec (f : Nat → Except Unit QuoteResult) :
    ∀ fuel low high, low ≤ high → high - low ≤ fuel →
      ∃ l h, refineLowerAux f fuel low high = some (l, h) ∧
        low ≤ l ∧ l ≤ h ∧ h ≤ high ∧ h - l ≤ 100 := by
  intro fuel
  induction fuel with
  | zero =>
    intro low high hle hf
    exact ⟨low, high, by unfold refineLowerAux; rw [if_pos (by omega)],
      le_refl _, hle, le_refl _, by omega⟩
  | succ fuel ih =>
    intro low high hle hf
    by_cases hw : high - low ≤ 100
    · exact ⟨low, high, by unfold refineLowerAux; rw [if_pos hw],
        le_refl _, hle, le_refl _, hw⟩
    · obtain ⟨hm1, hm2, hm3, hm4⟩ := mid_bounds low high (by omega)
      cases hpv : probe_valid f (high / 2 + low / 2) with
      | true =>
        obtain ⟨l, h, heq, p1, p2, p3, p4⟩ :=
          ih low (high / 2 + low / 2) hm1 (by omega)
        refine ⟨l, h, ?_, p1, p2, le_trans p3 hm2, p4⟩
        unfold refineLowerAux
        rw [if_neg hw]
        simp [hpv, heq]
      | false =>
        obtain ⟨l, h, heq, p1, p2, p3, p4⟩ :=
          ih (high / 2 + low / 2) high hm2 (by omega)
        refine ⟨l, h, ?_, le_trans hm1 p1, p2, p3, p4⟩
        unfold refineLowerAux
        rw [if_neg hw]
        simp [hpv, heq]

theorem refineUpperAux_spec (f : Nat → Except Unit QuoteResult) :
    ∀ fuel low high, low ≤ high → high - low ≤ fuel →
      ∃ l h, refineUpperAux f fuel low high = some (l, h) ∧
        low ≤ l ∧ l ≤ h ∧ h ≤ high ∧ h - l ≤ 100 := by
  intro fuel
  induction fuel with
  | zero =>
    intro low high hle hf
    exact ⟨low, high, by unfold refineUpperAux; rw [if_pos (by omega)],
      le_refl _, hle, le_refl _, by omega⟩
  | succ fuel ih =>
    intro low high hle hf
    by_cases hw : high - low ≤ 100
    · exact ⟨low, high, by unfold refineUpperAux; rw [if_pos hw],
        le_refl _, hle, le_refl _, hw⟩
    · obtain ⟨hm1, hm2, hm3, hm4⟩ := mid_bounds low high (by omega)
      cases hpv : probe_valid f (high / 2 + low / 2) with
      | true =>
        obtain ⟨l, h, heq, p1, p2, p3, p4⟩ :=
          ih (high / 2 + low / 2) high hm2 (by omega)
        refine ⟨l, h, ?_, le_trans hm1 p1, p2, p3, p4⟩
        unfold refineUpperAux
        rw [if_neg hw]
        simp [hpv, heq]
      | false =>
        obtain ⟨l, h, heq, p1, p2, p3, p4⟩ :=
          ih low (high / 2 + low / 2) hm1 (by omega)
        refine ⟨l, h, ?_, p1, p2, le_trans p3 hm2, p4⟩
        unfold refineUpperAux
        rw [if_neg hw]
        simp [hpv, heq]

theorem coarseLowerAux_congr (f g : Nat → Except Unit QuoteResult)
    (hfg : ∀ x, probe_valid f x = probe_valid g x) :
    ∀ fuel ll lh, coarseLowerAux f fuel ll lh = coarseLowerAux g fuel ll lh := by
  intro fuel
  induction fuel with
  | zero => intro ll lh; unfold coarseLowerAux; rw [hfg]
  | succ fuel ih =>
    intro ll lh
    unfold coarseLowerAux
    rw [hfg]
    simp only [ih]

theorem coarseUpperAux_congr (f g : Nat → Except Unit QuoteResult)
    (hfg : ∀ x, probe_valid f x = probe_valid g x) :
    ∀ fuel ul uh, coarseUpperAux f fuel ul uh = coarseUpperAux g fuel ul uh := by
  intro fuel
  induction fuel with
  | zero => intro ul uh; unfold coarseUpperAux; rw [hfg]
  | succ fuel ih =>
    intro ul uh
    unfold coarseUpperAux
    rw [hfg]
    simp only [ih]

theorem refineLowerAux_congr (f g : Nat → Except Unit QuoteResult)
    (hfg : ∀ x, probe_valid f x = probe_valid g x) :
    ∀ fuel low high, refineLowerAux f fuel low high = refineLowerAux g fuel low high := by
  intro fuel
  induction fuel with
  | zero => intro low high; unfold refineLowerAux; rfl
  | succ fuel ih =>
    intro low high
    unfold refineLowerAux
    rw [hfg]
    simp only [ih]

theorem refineUpperAux_congr (f g : Nat → Except Unit QuoteResult)
    (hfg : ∀ x, probe_valid f x = probe_valid g x) :
    ∀ fuel low high, refineUpperAux f fuel low high = refineUpperAux g fuel low high := by
  intro fuel
  induction fuel with
  | zero => intro low high; unfold refineUpperAux; rfl
  | succ fuel ih =>
    intro low high
    unfold refineUpperAux
    rw [hfg]
    simp only [ih]

/-- The boundary search depends on the pricing function only through the
validity of its probes. -/
theorem find_boundaries_congr (f g : Nat → Except Unit QuoteResult)
    (hfg : ∀ x, probe_valid f x = probe_valid g x) :
    find_boundaries f = find_boundaries g := by
  unfold find_boundaries find_boundaries_coarse refine_lower refine_upper
  simp only [coarseLowerAux_congr f g hfg, coarseUpperAux_congr f g hfg,
    refineLowerAux_congr f g hfg, refineUpperAux_congr f g hfg]

/-- On an always-invalid pricing function the coarse lower loop doubles
to saturation and exits with `lower_high = u64::MAX` and a strictly
smaller `lower_low`. -/
theorem coarseLowerAux_invalid (f : Nat → Except Unit QuoteResult)
    (hinv : ∀ x, probe_valid f x = false) :
    ∀ fuel ll lh, 0 < lh → lh < UMAX → 2 ^ 64 ≤ lh * 2 ^ fuel →
      ∃ ll', coarseLowerAux f fuel ll lh = some (ll', UMAX) ∧ ll' < UMAX := by
  intro fuel
  induction fuel with
  | zero =>
    intro ll lh h1 h2 h3
    exfalso
    have hU := UMAX_eq
    have hp : (2:Nat) ^ 64 = 18446744073709551616 := by norm_num
    simp only [pow_zero, mul_one] at h3
    omega
  | succ fuel ih =>
    intro ll lh h1 h2 h3
    rw [coarseLowerAux_succ, hinv, if_neg Bool.false_ne_true]
    by_cases hbr : satMul2 lh ≤ lh ∨ satMul2 lh = UMAX
    · exact ⟨lh, by rw [if_pos hbr], h2⟩
    · rw [if_neg hbr]
      push_neg at hbr
      have hsle : satMul2 lh ≤ UMAX := min_le_right _ _
      have hs : satMul2 lh = lh * 2 := by
        rcases Nat.le_total (lh * 2) UMAX with h | h
        · exact min_eq_left h
        · exact absurd (min_eq_right h) hbr.2
      rw [hs]
      apply ih lh (lh * 2) (by omega) (by omega)
      rw [pow_succ] at h3
      calc 2 ^ 64 ≤ lh * (2 ^ fuel * 2) := h3
        _ = lh * 2 * 2 ^ fuel := by ring

/-- The canonical pricing function whose quotes are valid exactly on
`[1000, 50000]` (zero expected output outside the interval). -/
def spec_fn : Nat → Except Unit QuoteResult := fun x =>
  if 1000 ≤ x ∧ x ≤ 50000 then .ok ⟨0, 0, x, 1, false⟩ else .ok ⟨0, 0, x, 0, false⟩

theorem probe_valid_spec_fn (x : Nat) :
    probe_valid spec_fn x = decide (1000 ≤ x ∧ x ≤ 50000) := by
  by_cases h : 1000 ≤ x ∧ x ≤ 50000 <;> simp [probe_valid, spec_fn, valid_quote, h]

/-- Claim C6: for every pricing function valid exactly on
`[1000, 50000]`, `find_boundaries` succeeds with the pair
`(1024, 49984)` — within 100 units of `(1000, 50000)` — with
`lo < hi` and both endpoints quoting validly. -/
theorem claim_C6 (f : Nat → Except Unit QuoteResult)
    (hf : ∀ x, probe_valid f x = true ↔ (1000 ≤ x ∧ x ≤ 50000)) :
    ∃ lo hi, find_boundaries f = some (.ok (lo, hi)) ∧
      1000 ≤ lo ∧ lo ≤ 1100 ∧ 49900 ≤ hi ∧ hi ≤ 50100 ∧ lo < hi ∧
      probe_valid f lo = true ∧ probe_valid f hi = true := by
  have hcong : ∀ x, probe_valid f x = probe_valid spec_fn x := by
    intro x
    rw [probe_valid_spec_fn]
    by_cases h : 1000 ≤ x ∧ x ≤ 50000
    · rw [(hf x).mpr h, decide_eq_true h]
    · cases hp : probe_valid f x with
      | true => exact absurd ((hf x).mp hp) h
      | false => rw [decide_eq_false h]
  refine ⟨1024, 49984, ?_, by omega, by omega, by omega, by omega, by omega, ?_, ?_⟩
  · rw [find_boundaries_congr f spec_fn hcong]
    decide
  · exact (hf 1024).mpr (by omega)
  · exact (hf 49984).mpr (by omega)

theorem claim_C6_witness :
    ∃ lo hi, find_boundaries spec_fn = some (.ok (lo, hi)) ∧
      1000 ≤ lo ∧ lo ≤ 1100 ∧ 49900 ≤ hi ∧ hi ≤ 50100 ∧ lo < hi ∧
      probe_valid spec_fn lo = true ∧ probe_valid spec_fn hi = true :=
  claim_C6 spec_fn
    (fun x => by rw [probe_valid_spec_fn]; exact decide_eq_true_iff)

/-- Claim C7: a pricing function that is invalid (failing,
insufficient-liquidity, or zero-output) at every probed amount makes
`find_boundaries` return the `NoQuotableValue` error — never a boundary
pair. -/
theorem claim_C7 (f : Nat → Except Unit QuoteResult)
    (hinv : ∀ x, probe_valid f x = false) :
    find_boundaries f = some (.error SearchError.noQuotableValue) ∧
    ∀ lower_bound upper_bound,
      find_boundaries f ≠ some (.ok (lower_bound, upper_bound)) := by
  have hmain : find_boundaries f = some (.error SearchError.noQuotableValue) := by
    obtain ⟨ll', heq, hlt⟩ := coarseLowerAux_invalid f hinv 64 0 1
      (by omega) (by rw [UMAX_eq]; omega) (by norm_num)
    unfold find_boundaries find_boundaries_coarse
    rw [heq]
    have hsat : satMul2 UMAX ≤ UMAX := min_le_right _ _
    simp only [hsat, if_pos]
    rw [if_neg (Nat.ne_of_lt hlt)]
  exact ⟨hmain, by intro lb ub; rw [hmain]; simp⟩

theorem claim_C7_witness :
    find_boundaries (fun _ => .error ()) =
      some (.error SearchError.noQuotableValue) :=
  (claim_C7 (fun _ => .error ()) (fun _ => rfl)).1

/-- Claim C8: for every pricing function and every starting bracket with
`low ≤ high` (inside the `u64` range), the binary refinement loops
terminate with the stated fuel: the probe `mid = high / 2 + low / 2`
does not overflow `u64`, stays inside the bracket, strictly narrows it
while the width exceeds 100, and on exit the bracket width is at most
100 atoms. -/
theorem claim_C8 (f : Nat → Except Unit QuoteResult) (low high : Nat)
    (hle : low ≤ high) (hhi : high ≤ UMAX) :
    (100 < high - low →
      low ≤ high / 2 + low / 2 ∧ high / 2 + low / 2 ≤ high ∧
      high / 2 + low / 2 ≤ UMAX ∧
      high - (high / 2 + low / 2) < high - low ∧
      (high / 2 + low / 2) - low < high - low) ∧
    (∃ l h, refineLowerAux f (high - low) low high = some (l, h) ∧
      low ≤ l ∧ l ≤ h ∧ h ≤ high ∧ h - l ≤ 100) ∧
    (∃ l h, refineUpperAux f (high - low) low high = some (l, h) ∧
      low ≤ l ∧ l ≤ h ∧ h ≤ high ∧ h - l ≤ 100) ∧
    refine_lower f low high ≠ none ∧ refine_upper f low high ≠ none := by
  have hlower := refineLowerAux_spec f (high - low) low high hle (le_refl _)
  have hupper := refineUpperAux_spec f (high - low) low high hle (le_refl _)
  refine ⟨?_, hlower, hupper, ?_, ?_⟩
  · intro hw
    obtain ⟨hm1, hm2, hm3, hm4⟩ := mid_bounds low high hw
    exact ⟨hm1, hm2, le_trans hm2 hhi, by omega, by omega⟩
  · obtain ⟨l, h, heq, -⟩ := hlower
    simp [refine_lower, heq]
  · obtain ⟨l, h, heq, -⟩ := hupper
    simp [refine_upper, heq]

theorem claim_C8_witness :
    (0 : Nat) ≤ 300 ∧ (300 : Nat) ≤ UMAX ∧
    (∃ l h, refineLowerAux (fun _ => .error ()) 300 0 300 = some (l, h) ∧
      0 ≤ l ∧ l ≤ h ∧ h ≤ 300 ∧ h - l ≤ 100) :=
  ⟨by omega, by rw [UMAX_eq]; omega,
    (claim_C8 (fun _ => .error ()) 0 300 (by omega)
      (by rw [UMAX_eq]; omega)).2.1⟩

/-- Polymorphic association-list lookup, for the venue's `HashMap`s. -/
def alGet {β : Type} (m : List (Pubkey × β)) (k : Pubkey) : Option β :=
  match m with
  | [] => none
  | (k', v) :: rest => if k' = k then some v else alGet rest k

/-- Polymorphic association-list erase (for overwriting inserts). -/
def alErase {β : Type} (m : List (Pubkey × β)) (k : Pubkey) : List (Pubkey × β) :=
  match m with
  | [] => []
  | (k', v) :: rest =>
    if k' = k then alErase rest k else (k', v) :: alErase rest k

/-- Polymorphic association-list insert with overwrite, modelling
`HashMap::insert`. -/
def alInsert {β : Type} (m : List (Pubkey × β)) (k : Pubkey) (v : β) :
    List (Pubkey × β) :=
  (k, v) :: alErase m k

/-- Modelled from the spec: `states::Vault` — `src/src/oxedium/states/vault.rs`
is absent from `src/` (only `amm.rs` reads it); the spec describes this
only as a venue's "internal pricing state", so the structure carries
exactly the two fields `amm.rs` reads — the Pyth oracle account key and
the vault's available liquidity. -/
structure Vault where
  pyth_price_account : Pubkey
  current_liquidity : Nat
deriving DecidableEq

/-- The single field of the external `spl_token::state::Mint` that the
venue reads. -/
structure MintData where
  decimals : Nat
deriving DecidableEq

/-- Embeds `PriceFeedMessage` (states/price_update_v2.rs): only `price : i64`
is read by the venue; the other fields are never consulted. -/
structure PriceFeedMessage where
  price : Int
deriving DecidableEq

/-- Embeds `PriceUpdateV2` (states/price_update_v2.rs): only `price_message` is
read by the venue. -/
structure PriceUpdateV2 where
  price_message : PriceFeedMessage
deriving DecidableEq

/-- Embeds `states::Treasury` (states/treasury.rs). -/
structure Treasury where
  stoptap : Bool
  admin : Pubkey
  fee_bps : Nat
deriving DecidableEq

/-- Embeds `TokenInfo` (trading_venue/token_info.rs). -/
structure TokenInfo where
  pubkey : Pubkey
  decimals : Int
  is_token_2022 : Bool
  transfer_fee : Option Nat
  maximum_fee : Option Nat
deriving DecidableEq

/-- Embeds `OxediumAmmVenue` (amm.rs:48-61).  The Rust lifecycle field
`initialized: bool` is spelled `initialised` here. -/
structure OxediumAmmVenue where
  initialised : Bool
  vaults : List (Pubkey × Vault)
  mints : List (Pubkey × MintData)
  oracles : List (Pubkey × PriceUpdateV2)
  treasury : Treasury
  token_infos : List TokenInfo
  market : Pubkey
deriving DecidableEq

/-- The two hard-wired `(mint, oracle)` pairs of `MINT_ORACLES`
(amm.rs:29-38).  The base58 key constants are 32-byte identifiers whose
only relevant property is distinctness; they are embedded as four
distinct `Nat` tokens. -/
def SOL_MINT : Pubkey := 1
def SOL_ORACLE : Pubkey := 2
def USDC_MINT : Pubkey := 3
def USDC_ORACLE : Pubkey := 4

def MINT_ORACLES : List (Pubkey × Pubkey) :=
  [(SOL_MINT, SOL_ORACLE), (USDC_MINT, USDC_ORACLE)]

/-- Embeds `get_required_pubkeys_for_update` (amm.rs:118-133): for each
`(mint, oracle)` pair push the vault PDA, the mint, and the oracle.
`find_program_address` is an external hash construction and is passed in
as the function `vault_pda`. -/
def get_required_pubkeys_for_update (vault_pda : Pubkey → Pubkey) : List Pubkey :=
  MINT_ORACLES.foldl (fun keys mo => keys ++ [vault_pda mo.1, mo.1, mo.2]) []

/-- The `filter_map ... collect::<HashMap<Pubkey, &Account>>` of
`update_state` (amm.rs:139-143): keep only the present accounts. -/
def buildAccountMap (pairs : List (Pubkey × Option Account)) :
    List (Pubkey × Account) :=
  pairs.foldl (fun m p =>
    match p.2 with
    | some a => alInsert m p.1 a
    | none => m) []

/-- Embeds `OxediumAmmVenue::update_state` (amm.rs:135-204), parameterised by:
`vault_pda` (the external `find_program_address` construction);
`parse_vault` (the `data.len() >= size_of::<Vault>()` guard plus
`Vault::deserialize` of `data[8..]` — `Vault` itself is absent from
`src/`); `parse_mint` (the `Mint::LEN` guard plus the external
`Mint::unpack`); `parse_oracle` (`PriceUpdateV2::try_from_account_data`,
whose borsh byte decoding is treated as an external decoder); and
`fetch` (the `AccountsCache::get_accounts` collaborator).  Note: a
missing or unparsable account only logs a warning and is skipped, and
the lifecycle flag is set unconditionally at the end (amm.rs:202). -/
def update_state
    (vault_pda : Pubkey → Pubkey)
    (parse_vault : List Nat → Option Vault)
    (parse_mint : List Nat → Option MintData)
    (parse_oracle : List Nat → Option PriceUpdateV2)
    (fetch : List Pubkey → Except Unit (List (Option Account)))
    (v : OxediumAmmVenue) : Except Unit OxediumAmmVenue :=
  let pubkeys := get_required_pubkeys_for_update vault_pda
  match fetch pubkeys with
  | .error e => .error e
  | .ok accounts =>
    let account_map := buildAccountMap (pubkeys.zip accounts)
    let vm := MINT_ORACLES.foldl
      (fun (vm : List (Pubkey × Vault) × List (Pubkey × MintData)) mo =>
        let vaults' :=
          match alGet account_map (vault_pda mo.1) with
          | some vault_account =>
            match parse_vault vault_account.data with
            | some vault => alInsert vm.1 mo.1 vault
            | none => vm.1
          | none => vm.1
        let mints' :=
          match alGet account_map mo.1 with
          | some mint_account =>
            match parse_mint mint_account.data with
            | some mint_data => alInsert vm.2 mo.1 mint_data
            | none => vm.2
          | none => vm.2
        (vaults', mints')) (v.vaults, v.mints)
    let oracles' := vm.1.foldl
      (fun os (p : Pubkey × Vault) =>
        match alGet account_map p.2.pyth_price_account with
        | some oracle_account =>
          match parse_oracle oracle_account.data with
          | some price_data => alInsert os p.2.pyth_price_account price_data
          | none => os
        | none => os) v.oracles
    let token_infos := vm.2.map
      (fun p => ⟨p.1, Int.ofNat p.2.decimals, false, none, none⟩)
    .ok { v with
            vaults := vm.1
            mints := vm.2
            oracles := oracles'
            token_infos := token_infos
            initialised := true }

/-- Embeds `OxediumAmmVenue::from_account` (amm.rs:63-86): a fresh venue with
the lifecycle flag down and empty state.  The `Pubkey::new_unique()`
admin placeholder is embedded as the token `999`. -/
def from_account (pubkey : Pubkey) : OxediumAmmVenue :=
  { initialised := false, vaults := [], mints := [], oracles := [],
    treasury := { stoptap := false, admin := 999, fee_bps := 0 },
    token_infos := [], market := pubkey }

/-- Embeds `SwapType` (trading_venue/mod.rs). -/
inductive SwapType where
  | exactIn
  | exactOut
deriving DecidableEq

/-- Embeds `QuoteRequest` (trading_venue/mod.rs).  `quote` never reads
`swap_type`, but the field is part of the request. -/
structure QuoteRequest where
  input_mint : Pubkey
  output_mint : Pubkey
  amount : Nat
  swap_type : SwapType
deriving DecidableEq

/-- The `TradingVenueError` variants reachable from
`OxediumAmmVenue::quote` (error.rs); the attached `ErrorInfo` payloads
are kept where they are pubkeys and dropped where they are strings. -/
inductive TradingVenueError where
  | notInitialised
  | vaultNotFound (k : Pubkey)
  | invalidMint (k : Pubkey)
  | oracleNotFound
  | mathError
deriving DecidableEq

/-- Modelled from the spec: the result type of `compute_swap_math`
(`src/src/oxedium/components`, absent from `src/`); the only field that
`quote` reads is `net_amount_out`. -/
structure SwapMathResult where
  net_amount_out : Nat
deriving DecidableEq

/-- Embeds `OxediumAmmVenue::quote` (amm.rs:206-261), parameterised by `math`,
the `compute_swap_math` function of the `oxedium::components` module,
which is absent from `src/` (the spec excludes a venue's concrete swap
formulas).  Its arguments mirror the call at amm.rs:238-247:
`(amount, price_in as u64, price_out as u64, in_decimals, out_decimals,
vault_in, vault_out, treasury)`; the `i64 → u64` casts are embedded as
reduction mod `2^64`. -/
def quote
    (math : Nat → Nat → Nat → Nat → Nat → Vault → Vault → Treasury →
      Except Unit SwapMathResult)
    (v : OxediumAmmVenue) (request : QuoteRequest) :
    Except TradingVenueError QuoteResult :=
  if v.initialised = false then .error .notInitialised
  else
    match alGet v.vaults request.input_mint with
    | none => .error (.vaultNotFound request.input_mint)
    | some vault_in =>
      match alGet v.vaults request.output_mint with
      | none => .error (.vaultNotFound request.output_mint)
      | some vault_out =>
        match alGet v.mints request.input_mint with
        | none => .error (.invalidMint request.input_mint)
        | some in_mint =>
          match alGet v.mints request.output_mint with
          | none => .error (.invalidMint request.output_mint)
          | some out_mint =>
            match alGet v.oracles vault_in.pyth_price_account with
            | none => .error .oracleNotFound
            | some price_in_data =>
              match alGet v.oracles vault_out.pyth_price_account with
              | none => .error .oracleNotFound
              | some price_out_data =>
                match math request.amount
                    ((price_in_data.price_message.price % (2 ^ 64 : Int)).toNat)
                    ((price_out_data.price_message.price % (2 ^ 64 : Int)).toNat)
                    in_mint.decimals out_mint.decimals vault_in vault_out
                    v.treasury with
                | .error _ => .error .mathError
                | .ok result =>
                  .ok { input_mint := request.input_mint,
                        output_mint := request.output_mint,
                        amount := request.amount,
                        expected_output := result.net_amount_out,
                        not_enough_liquidity :=
                          decide (result.net_amount_out > vault_out.current_liquidity) }

/-- Claim C2 (code evaluation at the failing input): `update_state` sets
the lifecycle flag unconditionally once the batch fetch returns, even
when every required account is missing.  With a cache response of all
`None` (six required accounts, none found), a fresh venue's refresh
returns `Ok` and the venue reports Ready with completely empty state —
the claim (and the spec's lifecycle contract) require a propagated error
and no transition to Ready. -/
theorem claim_C2_code_eval :
    (from_account 9).initialised = false ∧
    update_state (fun m => m + 100) (fun _ => none) (fun _ => none)
        (fun _ => none) (fun ks => .ok (ks.map (fun _ => none)))
        (from_account 9) =
      .ok { from_account 9 with initialised := true } := by
  decide

/-- Claim C9 (counterexample): a Ready venue whose vault map lacks the
requested input mint returns a `VaultNotFound` error from `quote`, also
at `amount = 0`.  This venue state is reachable: it is exactly what
`update_state` produces from a fresh venue when every required account
is missing (see the C2 evaluation above), yet `initialised` is `true`. -/
theorem claim_C9_counterexample :
    ({ from_account 9 with initialised := true } : OxediumAmmVenue).initialised
        = true ∧
    quote (fun _ _ _ _ _ _ _ _ => .ok ⟨0⟩)
        { from_account 9 with initialised := true }
        { input_mint := SOL_MINT, output_mint := USDC_MINT, amount := 0,
          swap_type := .exactIn } =
      .error (.vaultNotFound SOL_MINT) := by
  decide

/-- Claim C9 (amended): for a Ready venue whose vault, mint and oracle
maps contain the requested pair, and whose swap math succeeds at amount
0 with zero net output (which is what the spec demands of a conforming
swap formula), `quote` with `amount = 0` returns `Ok` with a zero-output
result and `not_enough_liquidity = false` — no error. -/
theorem claim_C9_amended
    (math : Nat → Nat → Nat → Nat → Nat → Vault → Vault → Treasury →
      Except Unit SwapMathResult)
    (v : OxediumAmmVenue) (request : QuoteRequest)
    (vault_in vault_out : Vault) (in_mint out_mint : MintData)
    (price_in price_out : PriceUpdateV2) (r : SwapMathResult)
    (hready : v.initialised = true)
    (hamount : request.amount = 0)
    (hvin : alGet v.vaults request.input_mint = some vault_in)
    (hvout : alGet v.vaults request.output_mint = some vault_out)
    (hmin : alGet v.mints request.input_mint = some in_mint)
    (hmout : alGet v.mints request.output_mint = some out_mint)
    (hpin : alGet v.oracles vault_in.pyth_price_account = some price_in)
    (hpout : alGet v.oracles vault_out.pyth_price_account = some price_out)
    (hmath : math 0 ((price_in.price_message.price % (2 ^ 64 : Int)).toNat)
        ((price_out.price_message.price % (2 ^ 64 : Int)).toNat)
        in_mint.decimals out_mint.decimals vault_in vault_out v.treasury =
        .ok r)
    (hzero : r.net_amount_out = 0) :
    quote math v request =
      .ok { input_mint := request.input_mint,
            output_mint := request.output_mint,
            amount := 0,
            expected_output := 0,
            not_enough_liquidity := false } := by
  unfold quote
  simp only [hready, hamount, hvin, hvout, hmin, hmout, hpin, hpout, hmath,
    hzero]
  simp

theorem claim_C9_witness :
    quote (fun _ _ _ _ _ _ _ _ => .ok ⟨0⟩)
        { initialised := true,
          vaults := [(10, ⟨20, 5⟩), (11, ⟨21, 5⟩)],
          mints := [(10, ⟨6⟩), (11, ⟨6⟩)],
          oracles := [(20, ⟨⟨7⟩⟩), (21, ⟨⟨7⟩⟩)],
          treasury := ⟨false, 999, 0⟩,
          token_infos := [], market := 9 }
        { input_mint := 10, output_mint := 11, amount := 0,
          swap_type := .exactIn } =
      .ok { input_mint := 10, output_mint := 11, amount := 0,
            expected_output := 0, not_enough_liquidity := false } :=
  claim_C9_amended (fun _ _ _ _ _ _ _ _ => .ok ⟨0⟩) _ _
    ⟨20, 5⟩ ⟨21, 5⟩ ⟨6⟩ ⟨6⟩ ⟨⟨7⟩⟩ ⟨⟨7⟩⟩ ⟨0⟩
    (by decide) (by decide) (by decide) (by decide) (by decide) (by decide)
    (by decide) (by decide) (by decide) (by decide)
